import Mathlib

/-!
Verification of the EDMS folder-hierarchy / filter engine of the PMIS
front-end (`src/components/edms/FileExplorer.tsx` and the folder-tree
navigation component).

The engine is embedded shallowly:
* `Document`, `Project`, `FolderNode` mirror the TypeScript interfaces
  (`src/mock/interfaces.ts`), keeping exactly the fields the engine reads;
  the `phase` and `discipline` fields are string-literal unions at runtime,
  so they are embedded as `String`.
* JavaScript string operations are modelled on the character list `.data`
  of a `String` (`toLowerCase` via `Char.toLower`, `includes` as a
  contiguous-sublist test, `split('-')` as a single-character splitter),
  which matches the runtime behaviour on the ASCII data the engine handles.
* The stateful `useMemo` bodies become pure functions: `folderTree`
  (tree builder) and `applyFilter` (path filter then search filter).
  `applyFilter` returns an `Option` because the JavaScript code throws a
  `TypeError` on an empty selected path (`selectedPath[0]` is `undefined`
  and `undefined.includes` faults); `none` models that fault.
-/

/-- The fields of the `Document` interface read by the explorer engine
(`interfaces.ts`); remaining fields (mime type, status, audit trails, …)
are never consulted by the tree builder or the filter engine. -/
structure Document where
  id : String
  name : String
  category : String
  projectId : String
  phase : String
  discipline : String
  tags : List String
  description : Option String
  deriving DecidableEq, Repr

/-- The slice of the `Project` interface used by the tree builder:
the lookup key and the display name. -/
structure Project where
  id : String
  name : String
  deriving DecidableEq, Repr

/-- `FolderNode` from `interfaces.ts`.  The builder always populates
`children` and `documentCount`, so they are not options here; the
classification fields stay optional exactly as in the interface. -/
structure FolderNode where
  id : String
  name : String
  type : String
  children : List FolderNode
  documentCount : Nat
  projectId : Option String
  phase : Option String
  discipline : Option String
  deriving Repr

instance : Inhabited FolderNode :=
  ⟨⟨"", "", "", [], 0, none, none, none⟩⟩

/-! ### JavaScript string primitives, modelled on character lists -/

/-- JavaScript `String.prototype.toLowerCase`, modelled with `Char.toLower`
on the character data. -/
def lowerStr (s : String) : String :=
  ⟨s.data.map Char.toLower⟩

/-- Does `l` start with `p`?  (Helper for the substring test.) -/
def beginsWith : List Char → List Char → Bool
  | _, [] => true
  | [], _ :: _ => false
  | a :: as, b :: bs => a == b && beginsWith as bs

/-- JavaScript `big.includes(small)`: `small` occurs as a contiguous
substring of `big` (every string includes the empty string). -/
def strIncludes (big small : String) : Bool :=
  go big.data
where
  go : List Char → Bool
    | [] => beginsWith [] small.data
    | a :: as => beginsWith (a :: as) small.data || go as

/-- JavaScript `s.split(sep)` for a single-character separator: split on
every occurrence, keeping empty pieces (`"-".split('-') = ["", ""]`,
`"".split('-') = [""]`). -/
def splitChar (sep : Char) : List Char → List (List Char)
  | [] => [[]]
  | c :: cs =>
    if c = sep then [] :: splitChar sep cs
    else
      match splitChar sep cs with
      | [] => [[c]]
      | r :: rs => (c :: r) :: rs

/-- The dash-token list of a path id: `pathId.split('-')` as strings. -/
def dashParts (pathId : String) : List String :=
  (splitChar '-' pathId.data).map fun l => ⟨l⟩

/-! ### The filter/search engine (`filteredDocuments` in `FileExplorer.tsx`) -/

/-- One document against the lower-cased search query, in the source's
order of disjuncts: name, then tags, then category, then the optional
description (`d.description?.…` is falsy when the description is absent). -/
def matchesSearch (query : String) (d : Document) : Bool :=
  strIncludes (lowerStr d.name) query
    || d.tags.any (fun t => strIncludes (lowerStr t) query)
    || strIncludes (lowerStr d.category) query
    || (match d.description with
        | some s => strIncludes (lowerStr s) query
        | none => false)

/-- The search stage: `if (searchQuery) { … filter … }` — a JavaScript
string is truthy exactly when non-empty, and the query is lower-cased
once before the scan. -/
def searchFilter (searchQuery : String) (docs : List Document) : List Document :=
  if searchQuery = "" then docs
  else docs.filter (matchesSearch (lowerStr searchQuery))

/-- The path stage for a first path element other than `"all"`:
if the id contains a dash, split on `-`, take `parts[0] + '-' + parts[1]`
as the projectId restriction, then (when three or more tokens) `parts[2]`
as the phase restriction, then (when four or more) `parts[3]` as the
discipline restriction; with no dash the id is a bare projectId. -/
def pathRestrict (pathId : String) (docs : List Document) : List Document :=
  if pathId.data.contains '-' then
    let parts := dashParts pathId
    let projectId := parts.getD 0 "" ++ "-" ++ parts.getD 1 ""
    let f1 := docs.filter fun d => d.projectId == projectId
    let f2 :=
      if 3 ≤ parts.length then f1.filter fun d => d.phase == parts.getD 2 ""
      else f1
    if 4 ≤ parts.length then f2.filter fun d => d.discipline == parts.getD 3 ""
    else f2
  else
    docs.filter fun d => d.projectId == pathId

/-- `filteredDocuments`: path filtering on the first element of the
selected path, then search filtering.  An empty selected path makes the
JavaScript code read `selectedPath[0]` as `undefined`, pass the
`!== 'all'` guard, and fault on `undefined.includes`; that fault is
`none` here. -/
def applyFilter (docs : List Document) (selectedPath : List String)
    (searchQuery : String) : Option (List Document) :=
  match selectedPath with
  | [] => none
  | pathId :: _ =>
    let afterPath := if pathId = "all" then docs else pathRestrict pathId docs
    some (searchFilter searchQuery afterPath)

/-! ### Concrete documents (the two-document collection of spec §8) -/

def d1 : Document :=
  { id := "d1", name := "Bridge Plan", category := "Drawing"
    projectId := "proj-1", phase := "Design", discipline := "Civil"
    tags := ["structural"], description := none }

def d2 : Document :=
  { id := "d2", name := "Wiring Diagram", category := "Drawing"
    projectId := "proj-1", phase := "Execution", discipline := "Electrical"
    tags := [], description := none }

def specD8 : List Document := [d1, d2]

/-! ### The folder tree builder (`folderTree` in `FileExplorer.tsx`)

The imperative loop keeps an insertion-ordered `Map` of project nodes and,
inside each, insertion-ordered child arrays, and for each document either
finds an existing node by a key or pushes a fresh one, then mutates the
found-or-fresh node.  `upsertBy key target fresh f` is that pattern on an
ordered list: apply `f` to the first node whose `key` equals `target`, or
append `f fresh` when none matches. -/

def upsertBy (key : FolderNode → String) (target : String)
    (fresh : FolderNode) (f : FolderNode → FolderNode) :
    List FolderNode → List FolderNode
  | [] => [f fresh]
  | n :: ns =>
    if key n == target then f n :: ns
    else n :: upsertBy key target fresh f ns

/-- `project?.name || 'Unknown Project'`: the display name falls back on a
missing project and also on a falsy (empty) stored name. -/
def projectDisplayName (projects : List Project) (pid : String) : String :=
  match projects.find? (fun p => p.id == pid) with
  | some p => if p.name = "" then "Unknown Project" else p.name
  | none => "Unknown Project"

/-- A project node as first created (count 0, no children yet). -/
def freshProjectNode (projects : List Project) (pid : String) : FolderNode :=
  { id := pid, name := projectDisplayName projects pid, type := "project"
    children := [], documentCount := 0
    projectId := some pid, phase := none, discipline := none }

/-- A phase node as first created for document `d`. -/
def freshPhaseNode (d : Document) : FolderNode :=
  { id := d.projectId ++ "-" ++ d.phase, name := d.phase, type := "phase"
    children := [], documentCount := 0
    projectId := none, phase := some d.phase, discipline := none }

/-- A discipline node as first created for document `d`. -/
def freshDisciplineNode (d : Document) : FolderNode :=
  { id := d.projectId ++ "-" ++ d.phase ++ "-" ++ d.discipline
    name := d.discipline, type := "discipline"
    children := [], documentCount := 0
    projectId := none, phase := none, discipline := some d.discipline }

/-- `documentCount++`. -/
def bumpCount (n : FolderNode) : FolderNode :=
  { n with documentCount := n.documentCount + 1 }

/-- Discipline step: `phaseNode.children.find((c) => c.name === doc.discipline)`,
push `freshDisciplineNode` when absent, then `documentCount++`. -/
def discChildren (d : Document) (children : List FolderNode) :
    List FolderNode :=
  upsertBy (fun c => c.name) d.discipline (freshDisciplineNode d) bumpCount
    children

/-- Phase-node mutation: `phaseNode.documentCount++` plus the discipline
step on its children. -/
def phaseUpdate (d : Document) (ph : FolderNode) : FolderNode :=
  { ph with
    documentCount := ph.documentCount + 1
    children := discChildren d ph.children }

/-- Phase step: `projectNode.children.find((c) => c.name === doc.phase)`,
push `freshPhaseNode` when absent, then mutate it. -/
def phaseChildren (d : Document) (children : List FolderNode) :
    List FolderNode :=
  upsertBy (fun c => c.name) d.phase (freshPhaseNode d) (phaseUpdate d)
    children

/-- Project-node mutation: `projectNode.documentCount++` plus the phase
step on its children. -/
def projUpdate (d : Document) (pn : FolderNode) : FolderNode :=
  { pn with
    documentCount := pn.documentCount + 1
    children := phaseChildren d pn.children }

/-- The loop body of the builder: route document `d` into the ordered list
of project nodes.  The project node is keyed by its id (the `Map` key is
`doc.projectId`); the phase and discipline children are found by their
display `name` (`c.name === doc.phase`, `c.name === doc.discipline` in the
source), and each node along the route gets its count incremented. -/
def insertDoc (projects : List Project) (acc : List FolderNode)
    (d : Document) : List FolderNode :=
  upsertBy (fun n => n.id) d.projectId (freshProjectNode projects d.projectId)
    (projUpdate d) acc

/-- `folderTree`: the single `"all"` root (typed `project`, counting every
document) whose children are the project nodes in first-seen order. -/
def folderTree (projects : List Project) (documents : List Document) :
    List FolderNode :=
  [{ id := "all", name := "All Documents", type := "project"
     children := documents.foldl (insertDoc projects) []
     documentCount := documents.length
     projectId := none, phase := none, discipline := none }]

/-- The root of a built tree (the builder returns a singleton list). -/
def rootNode (projects : List Project) (documents : List Document) :
    FolderNode :=
  (folderTree projects documents).headD default

/-- Sum of the `documentCount` fields over a list of nodes. -/
def sumCounts (l : List FolderNode) : Nat :=
  (l.map FolderNode.documentCount).sum

/-! ### The exact-id-lookup variant of the builder

Modelled from the spec's words: sibling phase and discipline nodes are
looked up by their composite id (`projectId-phase`,
`projectId-phase-discipline`), not by their display name.  Used to compare
with `insertDoc`, which the source writes with name lookup. -/

def discChildrenById (d : Document) (children : List FolderNode) :
    List FolderNode :=
  upsertBy (fun c => c.id)
    (d.projectId ++ "-" ++ d.phase ++ "-" ++ d.discipline)
    (freshDisciplineNode d) bumpCount children

def phaseUpdateById (d : Document) (ph : FolderNode) : FolderNode :=
  { ph with
    documentCount := ph.documentCount + 1
    children := discChildrenById d ph.children }

def phaseChildrenById (d : Document) (children : List FolderNode) :
    List FolderNode :=
  upsertBy (fun c => c.id) (d.projectId ++ "-" ++ d.phase)
    (freshPhaseNode d) (phaseUpdateById d) children

def projUpdateById (d : Document) (pn : FolderNode) : FolderNode :=
  { pn with
    documentCount := pn.documentCount + 1
    children := phaseChildrenById d pn.children }

def insertDocById (projects : List Project) (acc : List FolderNode)
    (d : Document) : List FolderNode :=
  upsertBy (fun n => n.id) d.projectId (freshProjectNode projects d.projectId)
    (projUpdateById d) acc

/-- Tree building with exact-id child lookup (spec wording). -/
def folderTreeById (projects : List Project) (documents : List Document) :
    List FolderNode :=
  [{ id := "all", name := "All Documents", type := "project"
     children := documents.foldl (insertDocById projects) []
     documentCount := documents.length
     projectId := none, phase := none, discipline := none }]

def specD8TreeRoot : FolderNode :=
      { id := "all", name := "All Documents", type := "project"
        documentCount := 2
        children :=
          [{ id := "proj-1", name := "Unknown Project", type := "project"
             documentCount := 2, projectId := some "proj-1"
             phase := none, discipline := none
             children :=
               [{ id := "proj-1-Design", name := "Design", type := "phase"
                  documentCount := 1, phase := some "Design"
                  projectId := none, discipline := none
                  children :=
                    [{ id := "proj-1-Design-Civil", name := "Civil"
                       type := "discipline", documentCount := 1
                       discipline := some "Civil"
                       projectId := none, phase := none, children := [] }] },
                { id := "proj-1-Execution", name := "Execution", type := "phase"
                  documentCount := 1, phase := some "Execution"
                  projectId := none, discipline := none
                  children :=
                    [{ id := "proj-1-Execution-Electrical", name := "Electrical"
                       type := "discipline", documentCount := 1
                       discipline := some "Electrical"
                       projectId := none, phase := none, children := [] }] }] }]
        projectId := none, phase := none, discipline := none }

/-! ### Tree-click navigation (`TreeNode` / `FolderTree` in the sidebar)

`TreeNode` computes `nodePath = [...parentPath, node.id]` and hands that
path to `onSelect` when the row is clicked; its children are rendered with
`parentPath = nodePath`.  `FolderTree` renders the root list with the
default `parentPath = []`.  `nodePaths`/`forestPaths` collect every
selection path a click can produce. -/

mutual

def nodePaths (parent : List String) : FolderNode → List (List String)
  | ⟨id, _, _, children, _, _, _, _⟩ =>
    (parent ++ [id]) :: forestPaths (parent ++ [id]) children

def forestPaths (parent : List String) : List FolderNode → List (List String)
  | [] => []
  | n :: ns => nodePaths parent n ++ forestPaths parent ns

end

/-- All selection paths clickable from a rendered tree list. -/
def treePaths (nodes : List FolderNode) : List (List String) :=
  forestPaths [] nodes

/-! ### One-pass normal form of the filter engine -/

/-- The path restriction of a first path element, as a single conjunctive
predicate (project AND phase-when-present AND discipline-when-present). -/
def pathPred (pathId : String) (d : Document) : Bool :=
  if pathId.data.contains '-' then
    let parts := dashParts pathId
    (d.projectId == parts.getD 0 "" ++ "-" ++ parts.getD 1 "")
      && (decide (parts.length < 3) || d.phase == parts.getD 2 "")
      && (decide (parts.length < 4) || d.discipline == parts.getD 3 "")
  else
    d.projectId == pathId

/-- The search stage as a predicate (an empty query keeps everything). -/
def searchPred (q : String) (d : Document) : Bool :=
  q == "" || matchesSearch (lowerStr q) d

/-! ### Search-stage predicates spelled the way the claims word them -/

/-- The search predicate exactly as claim C5 words it: the lower-cased
query is a substring of the lower-cased name, OR of the lower-cased
category, OR is present case-insensitively AMONG the tags (set
membership), OR is a substring of the lower-cased description.  Stated for
comparison with the source's `matchesSearch`. -/
def searchMatchesSpecMembership (q : String) (d : Document) : Bool :=
  strIncludes (lowerStr d.name) (lowerStr q)
    || strIncludes (lowerStr d.category) (lowerStr q)
    || (d.tags.map lowerStr).contains (lowerStr q)
    || (match d.description with
        | some s => strIncludes (lowerStr s) (lowerStr q)
        | none => false)

/-- The amended search predicate: as C5, but the tag disjunct is a
substring test against each lower-cased tag (what the source's
`t.toLowerCase().includes(query)` computes), not set membership. -/
def searchMatchesClaim (q : String) (d : Document) : Bool :=
  strIncludes (lowerStr d.name) (lowerStr q)
    || strIncludes (lowerStr d.category) (lowerStr q)
    || d.tags.any (fun t => strIncludes (lowerStr t) (lowerStr q))
    || (match d.description with
        | some s => strIncludes (lowerStr s) (lowerStr q)
        | none => false)

/-- A document matched through a proper substring of one of its tags:
`"ruct"` is not among its tags, but is inside the tag `"structural"`. -/
def dTag : Document :=
  { id := "t1", name := "Plan", category := "Misc"
    projectId := "proj-1", phase := "Design", discipline := "Civil"
    tags := ["structural"], description := none }

/-- A document whose name contains a space character. -/
def wsDoc1 : Document :=
  { id := "w1", name := "Site Plan", category := "Misc"
    projectId := "proj-1", phase := "Design", discipline := "Civil"
    tags := [], description := none }

/-- A document with no whitespace in any searched field. -/
def wsDoc2 : Document :=
  { id := "w2", name := "Roadmap", category := "Misc"
    projectId := "proj-1", phase := "Design", discipline := "Civil"
    tags := [], description := none }

def wsDocs : List Document := [wsDoc1, wsDoc2]

/-- Invariant of every project node the builder constructs: each phase
child's id is the parent id extended with a dash and the child's display
name (and likewise one level down for discipline children), and sibling
display names never repeat.  Under it, name lookup and exact-id lookup
coincide. -/
def nodeInv (pn : FolderNode) : Prop :=
  (∀ ph ∈ pn.children, ph.id = pn.id ++ "-" ++ ph.name ∧
      ∀ dn ∈ ph.children, dn.id = ph.id ++ "-" ++ dn.name) ∧
  (pn.children.map FolderNode.name).Nodup ∧
  ∀ ph ∈ pn.children, (ph.children.map FolderNode.name).Nodup

/-- A project node whose phase child carries a display name that does not
match its id (unreachable from the builder, but `insertDoc` is defined on
any accumulator); it separates name lookup from exact-id lookup. -/
def oddPhaseAcc : List FolderNode :=
  [{ id := "proj-1", name := "Project One", type := "project"
     documentCount := 1, projectId := some "proj-1"
     phase := none, discipline := none
     children :=
       [{ id := "weird", name := "Design", type := "phase"
          documentCount := 1, phase := some "Design"
          projectId := none, discipline := none, children := [] }] }]

/-! ### Sanity checks against the §8 scenarios -/

example : applyFilter specD8 ["all"] "" = some specD8 := by decide
example : applyFilter specD8 ["proj-1-Design-Civil"] "" = some [d1] := by decide
example : applyFilter specD8 ["all"] "wiring" = some [d2] := by decide
example : applyFilter specD8 ["all"] "nonexistent-term" = some [] := by decide
example : rootNode [] specD8 = specD8TreeRoot := by rfl
example :
    treePaths (folderTree [] [d1]) =
      [["all"], ["all", "proj-1"], ["all", "proj-1", "proj-1-Design"],
       ["all", "proj-1", "proj-1-Design", "proj-1-Design-Civil"]] := by
  rfl

/-! ### Helper lemmas about `upsertBy` -/

theorem upsertBy_eq {key1 key2 : FolderNode → String} {t1 t2 : String}
    {fresh : FolderNode} {f g : FolderNode → FolderNode} :
    ∀ {l : List FolderNode},
      (∀ x ∈ l, (key1 x == t1) = (key2 x == t2)) →
      (∀ x ∈ l, (key1 x == t1) = true → f x = g x) →
      f fresh = g fresh →
      upsertBy key1 t1 fresh f l = upsertBy key2 t2 fresh g l
  | [], _, _, hfr => by simp [upsertBy, hfr]
  | n :: ns, hp, hf, hfr => by
    rw [upsertBy, upsertBy, ← hp n (List.mem_cons_self n ns)]
    by_cases h : (key1 n == t1) = true
    · simp only [h, if_true, hf n (List.mem_cons_self n ns) h]
    · simp only [eq_false_of_ne_true h, Bool.false_eq_true, if_false]
      rw [upsertBy_eq (fun x hx => hp x (List.mem_cons_of_mem n hx))
        (fun x hx => hf x (List.mem_cons_of_mem n hx)) hfr]

theorem mem_upsertBy {key : FolderNode → String} {t : String}
    {fresh : FolderNode} {f : FolderNode → FolderNode} :
    ∀ {l : List FolderNode} {x : FolderNode}, x ∈ upsertBy key t fresh f l →
      x ∈ l ∨ (∃ y, (y ∈ l ∧ (key y == t) = true) ∧ x = f y) ∨ x = f fresh
  | [], x, hx => by
    simp only [upsertBy, List.mem_singleton] at hx
    exact Or.inr (Or.inr hx)
  | n :: ns, x, hx => by
    rw [upsertBy] at hx
    by_cases h : (key n == t) = true
    · rw [if_pos h] at hx
      rcases List.mem_cons.mp hx with rfl | hx
      · exact Or.inr (Or.inl ⟨n, ⟨List.mem_cons_self n ns, h⟩, rfl⟩)
      · exact Or.inl (List.mem_cons_of_mem n hx)
    · rw [if_neg h] at hx
      rcases List.mem_cons.mp hx with rfl | hx
      · exact Or.inl (List.mem_cons_self x ns)
      · rcases mem_upsertBy hx with h1 | h1 | h1
        · exact Or.inl (List.mem_cons_of_mem n h1)
        · obtain ⟨y, ⟨hy, hk⟩, hxy⟩ := h1
          exact Or.inr (Or.inl ⟨y, ⟨List.mem_cons_of_mem n hy, hk⟩, hxy⟩)
        · exact Or.inr (Or.inr h1)

theorem upsertBy_preserves_exists {key : FolderNode → String} {t : String}
    {fresh : FolderNode} {f : FolderNode → FolderNode}
    {P : FolderNode → Prop} (hP : ∀ y, P y → P (f y)) :
    ∀ {l : List FolderNode}, (∃ x ∈ l, P x) →
      ∃ x ∈ upsertBy key t fresh f l, P x
  | [], h => by simp at h
  | n :: ns, h => by
    rw [upsertBy]
    obtain ⟨x, hx, hPx⟩ := h
    by_cases hk : (key n == t) = true
    · rw [if_pos hk]
      rcases List.mem_cons.mp hx with rfl | hx
      · exact ⟨f x, List.mem_cons_self _ _, hP x hPx⟩
      · exact ⟨x, List.mem_cons_of_mem _ hx, hPx⟩
    · rw [if_neg hk]
      rcases List.mem_cons.mp hx with rfl | hx
      · exact ⟨x, List.mem_cons_self _ _, hPx⟩
      · obtain ⟨z, hz, hPz⟩ :=
          @upsertBy_preserves_exists key t fresh f P hP ns ⟨x, hx, hPx⟩
        exact ⟨z, List.mem_cons_of_mem _ hz, hPz⟩

theorem upsertBy_hits {key : FolderNode → String} {t : String}
    {fresh : FolderNode} {f : FolderNode → FolderNode}
    {P : FolderNode → Prop} (hfr : P (f fresh))
    (hmatch : ∀ y, (key y == t) = true → P (f y)) :
    ∀ (l : List FolderNode), ∃ x ∈ upsertBy key t fresh f l, P x
  | [] => ⟨f fresh, by simp [upsertBy], hfr⟩
  | n :: ns => by
    rw [upsertBy]
    by_cases hk : (key n == t) = true
    · rw [if_pos hk]
      exact ⟨f n, List.mem_cons_self _ _, hmatch n hk⟩
    · rw [if_neg hk]
      obtain ⟨x, hx, hPx⟩ := upsertBy_hits hfr hmatch ns
      exact ⟨x, List.mem_cons_of_mem _ hx, hPx⟩

theorem sumCounts_upsertBy {key : FolderNode → String} {t : String}
    {fresh : FolderNode} {f : FolderNode → FolderNode}
    (hf : ∀ y, (f y).documentCount = y.documentCount + 1)
    (hfr : fresh.documentCount = 0) :
    ∀ (l : List FolderNode),
      sumCounts (upsertBy key t fresh f l) = sumCounts l + 1
  | [] => by simp [upsertBy, sumCounts, hf, hfr]
  | n :: ns => by
    rw [upsertBy]
    by_cases hk : (key n == t) = true
    · rw [if_pos hk]
      simp only [sumCounts, List.map_cons, List.sum_cons, hf]
      omega
    · rw [if_neg hk]
      have ih := @sumCounts_upsertBy key t fresh f hf hfr ns
      simp only [sumCounts, List.map_cons, List.sum_cons] at *
      omega

/-! ### Helper lemmas about strings -/

theorem strAppend_cancel_left {a b c : String} : a ++ b = a ++ c ↔ b = c := by
  constructor
  · intro h
    have hd : a.data ++ b.data = a.data ++ c.data := by
      rw [← String.data_append, ← String.data_append, h]
    exact String.ext (List.append_cancel_left hd)
  · intro h; rw [h]

theorem strAppend_inj (a : String) :
    Function.Injective (fun s => a ++ s) := by
  intro x y h
  exact strAppend_cancel_left.mp h

theorem pathRestrict_eq_filter (pathId : String) (docs : List Document) :
    pathRestrict pathId docs = docs.filter (pathPred pathId) := by
  by_cases hdash : pathId.data.contains '-'
  · simp only [pathRestrict, hdash, if_true]
    by_cases h3 : 3 ≤ (dashParts pathId).length
    · have e3 : decide ((dashParts pathId).length < 3) = false := by
        simp; omega
      by_cases h4 : 4 ≤ (dashParts pathId).length
      · have e4 : decide ((dashParts pathId).length < 4) = false := by
          simp; omega
        rw [if_pos h3, if_pos h4, List.filter_filter, List.filter_filter]
        refine List.filter_congr fun d _ => ?_
        simp only [pathPred, hdash, if_true, e3, e4, Bool.false_or]
        generalize (d.projectId == (dashParts pathId).getD 0 "" ++ "-" ++
          (dashParts pathId).getD 1 "") = A
        generalize (d.phase == (dashParts pathId).getD 2 "") = B
        generalize (d.discipline == (dashParts pathId).getD 3 "") = C
        cases A <;> cases B <;> cases C <;> rfl
      · have e4 : decide ((dashParts pathId).length < 4) = true := by
          simp; omega
        rw [if_pos h3, if_neg h4, List.filter_filter]
        refine List.filter_congr fun d _ => ?_
        simp only [pathPred, hdash, if_true, e3, e4, Bool.false_or,
          Bool.true_or, Bool.and_true]
        generalize (d.projectId == (dashParts pathId).getD 0 "" ++ "-" ++
          (dashParts pathId).getD 1 "") = A
        generalize (d.phase == (dashParts pathId).getD 2 "") = B
        cases A <;> cases B <;> rfl
    · have h4 : ¬ 4 ≤ (dashParts pathId).length := by omega
      have e3 : decide ((dashParts pathId).length < 3) = true := by
        simp; omega
      have e4 : decide ((dashParts pathId).length < 4) = true := by
        simp; omega
      rw [if_neg h3, if_neg h4]
      refine List.filter_congr fun d _ => ?_
      simp only [pathPred, hdash, if_true, e3, e4, Bool.true_or,
        Bool.and_true]
  · simp only [pathRestrict, hdash, Bool.false_eq_true, if_false]
    refine List.filter_congr fun d _ => ?_
    simp only [pathPred, hdash, Bool.false_eq_true, if_false]

theorem searchFilter_eq_filter (q : String) (docs : List Document) :
    searchFilter q docs = docs.filter (searchPred q) := by
  rw [searchFilter]
  by_cases hq : q = ""
  · subst hq
    rw [if_pos rfl]
    rw [show (docs.filter (searchPred "")) = docs.filter fun _ => true from
      List.filter_congr fun d _ => by simp [searchPred]]
    exact (List.filter_true docs).symm
  · rw [if_neg hq]
    refine List.filter_congr fun d _ => ?_
    have hb : (q == "") = false := by simpa using hq
    simp only [searchPred, hb, Bool.false_or]

/-- `applyFilter` on a non-empty path is a single `filter` pass over the
input. -/
theorem applyFilter_eq_filter (docs : List Document) (h : String)
    (t : List String) (q : String) :
    applyFilter docs (h :: t) q =
      some (docs.filter fun d => (h == "all" || pathPred h d) && searchPred q d) := by
  rw [applyFilter]
  by_cases hall : h = "all"
  · subst hall
    simp only [if_true, searchFilter_eq_filter]
    refine congrArg some (List.filter_congr fun d _ => ?_)
    simp
  · have hb : (h == "all") = false := by simpa using hall
    simp only [if_neg hall, searchFilter_eq_filter, pathRestrict_eq_filter,
      List.filter_filter]
    refine congrArg some (List.filter_congr fun d _ => ?_)
    rw [hb, Bool.false_or, Bool.and_comm]

/-! ### Counting lemmas for the tree builder -/

theorem sumCounts_insertDoc (projects : List Project)
    (acc : List FolderNode) (d : Document) :
    sumCounts (insertDoc projects acc d) = sumCounts acc + 1 := by
  rw [insertDoc]
  exact sumCounts_upsertBy (fun y => rfl) rfl acc

theorem sumCounts_foldl_insertDoc (projects : List Project) :
    ∀ (docs : List Document) (acc : List FolderNode),
      sumCounts (docs.foldl (insertDoc projects) acc) =
        sumCounts acc + docs.length
  | [], acc => by simp
  | d :: ds, acc => by
    rw [List.foldl_cons, sumCounts_foldl_insertDoc projects ds,
      sumCounts_insertDoc, List.length_cons]
    omega

/-! ### Claim theorems -/

/-- C1.  Filtering with selected path `["all"]` and the empty search query
is the identity on any document collection: `applyFilter` returns the
collection itself, in its original order. -/
theorem c1_all_empty_identity (docs : List Document) :
    applyFilter docs ["all"] "" = some docs := by
  simp [applyFilter, searchFilter]

/-- C4.  `folderTree` always produces exactly one root node, with id
`"all"`, kind `project`, and `documentCount` equal to the collection's
length; on the empty collection that root has count 0 and no children. -/
theorem c4_single_root :
    (∀ (projects : List Project) (docs : List Document),
      ∃ root, folderTree projects docs = [root] ∧ root.id = "all" ∧
        root.type = "project" ∧ root.documentCount = docs.length) ∧
    (∀ projects : List Project,
      folderTree projects [] =
        [{ id := "all", name := "All Documents", type := "project"
           children := [], documentCount := 0
           projectId := none, phase := none, discipline := none }]) := by
  constructor
  · intro projects docs
    exact ⟨_, rfl, rfl, rfl, rfl⟩
  · intro projects
    rfl

/-- C7.  In the built tree, the `documentCount` values of the root's
immediate children (the project nodes) sum to the root's own
`documentCount`. -/
theorem c7_root_children_sum (projects : List Project)
    (docs : List Document) :
    sumCounts (rootNode projects docs).children =
      (rootNode projects docs).documentCount := by
  show sumCounts (docs.foldl (insertDoc projects) []) = docs.length
  rw [sumCounts_foldl_insertDoc]
  simp [sumCounts]

/-- C8.  The filter engine is idempotent: filtering an already-filtered
collection with the same selected path and query gives it back
unchanged. -/
theorem c8_idempotent (docs : List Document) (p : List String) (q : String)
    (r : List Document) (h : applyFilter docs p q = some r) :
    applyFilter r p q = some r := by
  match p with
  | [] => simp [applyFilter] at h
  | h0 :: t =>
    rw [applyFilter_eq_filter] at h
    have hr : r = docs.filter
        fun d => (h0 == "all" || pathPred h0 d) && searchPred q d :=
      (Option.some.injEq .. ▸ h).symm
    rw [applyFilter_eq_filter, hr, List.filter_filter]
    refine congrArg some (List.filter_congr fun d _ => ?_)
    generalize ((h0 == "all" || pathPred h0 d) && searchPred q d) = A
    cases A <;> rfl

/-- Witness for C8 at a concrete input. -/
theorem c8_idempotent_witness :
    applyFilter [d1] ["proj-1-Design-Civil"] "" = some [d1] :=
  c8_idempotent specD8 ["proj-1-Design-Civil"] "" [d1] (by decide)

/-- C2.  For a first path element containing a dash, the path stage is one
conjunctive pass: projectId must equal the first two dash tokens rejoined
with a dash, the phase must equal the third token when one exists, and the
discipline must equal the fourth token when one exists; a dashless element
restricts only the projectId.  On the §8 collection the composite id
`proj-1-Design-Civil` selects exactly `[d1]`. -/
theorem c2_path_tokenization :
    (∀ (docs : List Document) (pathId : String),
      pathId.data.contains '-' = true →
      pathRestrict pathId docs =
        docs.filter fun d =>
          (d.projectId ==
              (dashParts pathId).getD 0 "" ++ "-" ++ (dashParts pathId).getD 1 "")
            && (decide ((dashParts pathId).length < 3)
                || d.phase == (dashParts pathId).getD 2 "")
            && (decide ((dashParts pathId).length < 4)
                || d.discipline == (dashParts pathId).getD 3 "")) ∧
    (∀ (docs : List Document) (pathId : String),
      pathId.data.contains '-' = false →
      pathRestrict pathId docs =
        docs.filter fun d => d.projectId == pathId) ∧
    applyFilter specD8 ["proj-1-Design-Civil"] "" = some [d1] := by
  refine ⟨fun docs pathId hdash => ?_, fun docs pathId hdash => ?_, by decide⟩
  · rw [pathRestrict_eq_filter]
    exact List.filter_congr fun d _ => by
      simp only [pathPred, hdash, if_true]
  · rw [pathRestrict_eq_filter]
    exact List.filter_congr fun d _ => by
      simp only [pathPred, hdash, Bool.false_eq_true, if_false]

/-- Witness for C2 at a concrete input. -/
theorem c2_path_tokenization_witness :
    pathRestrict "proj-1-Design" specD8 =
      specD8.filter fun d =>
        (d.projectId ==
            (dashParts "proj-1-Design").getD 0 "" ++ "-" ++
              (dashParts "proj-1-Design").getD 1 "")
          && (decide ((dashParts "proj-1-Design").length < 3)
              || d.phase == (dashParts "proj-1-Design").getD 2 "")
          && (decide ((dashParts "proj-1-Design").length < 4)
              || d.discipline == (dashParts "proj-1-Design").getD 3 "") :=
  c2_path_tokenization.1 specD8 "proj-1-Design" (by decide)

/-- C5 as stated fails on the code: the engine retains `dTag` for the
query `"ruct"`, yet no disjunct of the claim's predicate holds for it —
`"ruct"` is not a substring of name, category, or description and is not
present among the tags; the code instead substring-matches inside the tag
`"structural"`. -/
theorem c5_search_fields_counterexample :
    applyFilter [dTag] ["all"] "ruct" = some [dTag] ∧
      searchMatchesSpecMembership "ruct" dTag = false := by
  decide

/-- C5 (amended).  For a non-empty query the search stage retains exactly
the documents whose lower-cased name, category, some lower-cased tag, or
lower-cased description contains the lower-cased query as a substring
(the tag disjunct is a substring test, not membership); and queries equal
up to letter case filter identically, both at the search stage and
through the full engine. -/
theorem c5_search_fields :
    (∀ (docs : List Document) (q : String), q ≠ "" →
      searchFilter q docs = docs.filter (searchMatchesClaim q)) ∧
    (∀ (docs : List Document) (q1 q2 : String), q1 ≠ "" → q2 ≠ "" →
      lowerStr q1 = lowerStr q2 →
      searchFilter q1 docs = searchFilter q2 docs) ∧
    (∀ (docs : List Document) (p : List String) (q1 q2 : String),
      q1 ≠ "" → q2 ≠ "" → lowerStr q1 = lowerStr q2 →
      applyFilter docs p q1 = applyFilter docs p q2) := by
  have hstage : ∀ (docs : List Document) (q1 q2 : String),
      q1 ≠ "" → q2 ≠ "" → lowerStr q1 = lowerStr q2 →
      searchFilter q1 docs = searchFilter q2 docs := by
    intro docs q1 q2 h1 h2 hl
    rw [searchFilter, searchFilter, if_neg h1, if_neg h2, hl]
  refine ⟨fun docs q hq => ?_, hstage, fun docs p q1 q2 h1 h2 hl => ?_⟩
  · rw [searchFilter, if_neg hq]
    refine List.filter_congr fun d _ => ?_
    rw [matchesSearch, searchMatchesClaim]
    generalize strIncludes (lowerStr d.name) (lowerStr q) = A
    generalize (d.tags.any fun t => strIncludes (lowerStr t) (lowerStr q)) = B
    generalize strIncludes (lowerStr d.category) (lowerStr q) = C
    generalize (match d.description with
      | some s => strIncludes (lowerStr s) (lowerStr q)
      | none => false) = E
    cases A <;> cases B <;> cases C <;> cases E <;> rfl
  · match p with
    | [] => rfl
    | h0 :: t =>
      rw [applyFilter, applyFilter]
      exact congrArg some (hstage _ q1 q2 h1 h2 hl)

/-- Witness for C5 (amended) at a concrete input. -/
theorem c5_search_fields_witness :
    searchFilter "civil" specD8 = specD8.filter (searchMatchesClaim "civil") ∧
      applyFilter specD8 ["all"] "civil" = applyFilter specD8 ["all"] "CIVIL" :=
  ⟨c5_search_fields.1 specD8 "civil" (by decide),
    c5_search_fields.2.2 specD8 ["all"] "civil" "CIVIL" (by decide) (by decide)
      (by decide)⟩

/-- Lower-casing leaves an all-whitespace string unchanged (whitespace is
space, tab, carriage return, or newline; none is an upper-case letter). -/
theorem lowerStr_whitespace (q : String)
    (h : q.data.all Char.isWhitespace = true) : lowerStr q = q := by
  apply String.ext
  show q.data.map Char.toLower = q.data
  have hws : ∀ a ∈ q.data, Char.toLower a = a := by
    intro a ha
    have := List.all_eq_true.mp h a ha
    simp only [Char.isWhitespace, Bool.or_eq_true, decide_eq_true_eq] at this
    rcases this with ((h1 | h1) | h1) | h1 <;> subst h1 <;> decide
  calc q.data.map Char.toLower = q.data.map id := List.map_congr_left hws
  _ = q.data := List.map_id q.data

/-- C10.  A query made only of whitespace is treated as non-empty: the
search stage runs, comparing the documents literally against the
whitespace string itself (no trimming); concretely, the one-space query
keeps only the document with a space in its name, while the empty query
keeps everything. -/
theorem c10_whitespace_query :
    (∀ q : String, q.data ≠ [] → q.data.all Char.isWhitespace = true →
      ∀ (docs : List Document) (h : String) (t : List String),
        applyFilter docs (h :: t) q =
          some ((if h = "all" then docs else pathRestrict h docs).filter
            (matchesSearch q))) ∧
    (applyFilter wsDocs ["all"] " " = some [wsDoc1] ∧
      applyFilter wsDocs ["all"] "" = some wsDocs) := by
  refine ⟨fun q hne hws docs h t => ?_, by decide, by decide⟩
  have hq : q ≠ "" := by
    intro hq; subst hq; exact hne rfl
  rw [applyFilter, searchFilter, if_neg hq, lowerStr_whitespace q hws]

/-- Witness for C10 at a concrete input. -/
theorem c10_whitespace_query_witness :
    applyFilter wsDocs ["all"] " " =
      some ((if "all" = "all" then wsDocs else pathRestrict "all" wsDocs).filter
        (matchesSearch " ")) :=
  c10_whitespace_query.1 " " (by decide) (by decide) wsDocs "all" []

/-! ### Heads of tree-click selection paths -/

mutual

theorem nodePaths_head : ∀ (parent : List String) (n : FolderNode)
    (q : List String), q ∈ nodePaths parent n →
      q.head? = (parent ++ [n.id]).head?
  | parent, ⟨nid, _, _, children, _, _, _, _⟩, q, hq => by
    rw [nodePaths] at hq
    rcases List.mem_cons.mp hq with rfl | hq
    · rfl
    · obtain ⟨m, _, hh⟩ := forestPaths_head (parent ++ [nid]) children q hq
      rw [hh]
      cases parent <;> rfl

theorem forestPaths_head : ∀ (parent : List String) (ns : List FolderNode)
    (q : List String), q ∈ forestPaths parent ns →
      ∃ m ∈ ns, q.head? = (parent ++ [m.id]).head?
  | _, [], q, hq => by
    rw [forestPaths] at hq
    exact absurd hq (List.not_mem_nil q)
  | parent, n :: ns, q, hq => by
    rw [forestPaths] at hq
    rcases List.mem_append.mp hq with h | h
    · exact ⟨n, List.mem_cons_self n ns, nodePaths_head parent n q h⟩
    · obtain ⟨m, hm, hh⟩ := forestPaths_head parent ns q h
      exact ⟨m, List.mem_cons_of_mem n hm, hh⟩

end

/-- C6.  The engine reads only the first element of the selected path:
paths with equal heads filter identically; any path headed by `"all"`
imposes no project/phase/discipline restriction whatever follows; and
every selection path producible by clicking the rendered tree starts at
the `"all"` root. -/
theorem c6_head_only :
    (∀ (docs : List Document) (q : String) (p1 p2 : List String),
      p1.head? = p2.head? → applyFilter docs p1 q = applyFilter docs p2 q) ∧
    (∀ (docs : List Document) (q : String) (rest : List String),
      applyFilter docs ("all" :: rest) q = some (searchFilter q docs)) ∧
    (∀ (projects : List Project) (docs : List Document) (p : List String),
      p ∈ treePaths (folderTree projects docs) → p.head? = some "all") := by
  refine ⟨fun docs q p1 p2 hh => ?_, fun docs q rest => ?_,
    fun projects docs p hp => ?_⟩
  · match p1, p2 with
    | [], [] => rfl
    | [], b :: t2 => simp at hh
    | a :: t1, [] => simp at hh
    | a :: t1, b :: t2 =>
      have : a = b := by simpa using hh
      subst this
      rw [applyFilter, applyFilter]
  · rw [applyFilter]
    simp
  · rw [treePaths, folderTree, forestPaths, forestPaths] at hp
    rw [List.append_nil] at hp
    exact nodePaths_head [] _ p hp

/-- Witness for C6 at concrete inputs. -/
theorem c6_head_only_witness :
    applyFilter specD8 ["all"] "plan" =
        applyFilter specD8 ["all", "proj-1"] "plan" ∧
      (["all", "proj-1"] : List String).head? = some "all" :=
  ⟨c6_head_only.1 specD8 "plan" ["all"] ["all", "proj-1"] (by decide),
    c6_head_only.2.2 [] [d1] ["all", "proj-1"] (by decide)⟩

/-! ### The unknown-project fallback -/

theorem insertDoc_unknown_inv {projects : List Project} {pid : String}
    (hfind : projects.find? (fun p => p.id == pid) = none)
    (d : Document) {acc : List FolderNode}
    (hacc : ∀ x ∈ acc, x.id = pid →
      x.name = "Unknown Project" ∧ x.type = "project") :
    ∀ x ∈ insertDoc projects acc d, x.id = pid →
      x.name = "Unknown Project" ∧ x.type = "project" := by
  intro x hx hid
  rcases mem_upsertBy hx with h | h | h
  · exact hacc x h hid
  · obtain ⟨y, ⟨hy, _⟩, rfl⟩ := h
    exact hacc y hy hid
  · subst h
    have hpid : d.projectId = pid := hid
    refine ⟨?_, rfl⟩
    show projectDisplayName projects d.projectId = "Unknown Project"
    rw [projectDisplayName, hpid, hfind]

theorem foldl_insertDoc_unknown_inv {projects : List Project} {pid : String}
    (hfind : projects.find? (fun p => p.id == pid) = none) :
    ∀ (docs : List Document) (acc : List FolderNode),
      (∀ x ∈ acc, x.id = pid →
        x.name = "Unknown Project" ∧ x.type = "project") →
      ∀ x ∈ docs.foldl (insertDoc projects) acc, x.id = pid →
        x.name = "Unknown Project" ∧ x.type = "project"
  | [], acc, hacc => hacc
  | d :: ds, acc, hacc => by
    rw [List.foldl_cons]
    exact foldl_insertDoc_unknown_inv hfind ds _
      (insertDoc_unknown_inv hfind d hacc)

theorem foldl_insertDoc_preserves_id (projects : List Project) (pid : String) :
    ∀ (docs : List Document) (acc : List FolderNode),
      (∃ x ∈ acc, x.id = pid) →
      ∃ x ∈ docs.foldl (insertDoc projects) acc, x.id = pid
  | [], _, hacc => hacc
  | d :: ds, acc, hacc => by
    rw [List.foldl_cons]
    refine foldl_insertDoc_preserves_id projects pid ds _ ?_
    rw [insertDoc]
    refine upsertBy_preserves_exists ?_ hacc
    intro y hy
    exact hy

theorem foldl_insertDoc_mem (projects : List Project) :
    ∀ (docs : List Document) (acc : List FolderNode) (d : Document),
      d ∈ docs →
      ∃ x ∈ docs.foldl (insertDoc projects) acc, x.id = d.projectId
  | [], _, _, hd => absurd hd (List.not_mem_nil _)
  | d0 :: ds, acc, d, hd => by
    rw [List.foldl_cons]
    rcases List.mem_cons.mp hd with rfl | hd
    · refine foldl_insertDoc_preserves_id projects d.projectId ds _ ?_
      rw [insertDoc]
      refine upsertBy_hits ?_ ?_ acc
      · rfl
      · intro y hy
        exact eq_of_beq hy
    · exact foldl_insertDoc_mem projects ds _ d hd

/-- C9.  A document whose `projectId` has no entry in the project lookup
still yields a project node in the built tree, labelled
`"Unknown Project"` and typed `project`; the builder is a total function
of its inputs and never fails on missing project metadata. -/
theorem c9_unknown_project (projects : List Project) (docs : List Document)
    (d : Document) (hd : d ∈ docs)
    (hmiss : ∀ p ∈ projects, p.id ≠ d.projectId) :
    ∃ n ∈ (rootNode projects docs).children,
      n.id = d.projectId ∧ n.name = "Unknown Project" ∧
        n.type = "project" := by
  have hfind : projects.find? (fun p => p.id == d.projectId) = none :=
    List.find?_eq_none.mpr fun p hp => by simpa using hmiss p hp
  obtain ⟨x, hx, hid⟩ := foldl_insertDoc_mem projects docs [] d hd
  have hinv := foldl_insertDoc_unknown_inv hfind docs []
    (by intro x hx; exact absurd hx (List.not_mem_nil x)) x hx hid
  exact ⟨x, hx, hid, hinv.1, hinv.2⟩

/-- Witness for C9 at a concrete input. -/
theorem c9_unknown_project_witness :
    ((rootNode [] [d1]).children.any fun n =>
      n.id == d1.projectId && n.name == "Unknown Project" &&
        n.type == "project") = true := by
  obtain ⟨n, hn, h1, h2, h3⟩ :=
    c9_unknown_project [] [d1] d1 (List.mem_singleton.mpr rfl)
      (fun p hp => absurd hp (List.not_mem_nil p))
  exact List.any_eq_true.mpr ⟨n, hn, by simp [h1, h2, h3]⟩

/-! ### Name lookup versus exact-id lookup in the builder -/

theorem beq_congr {α β : Type} [BEq α] [LawfulBEq α] [BEq β] [LawfulBEq β]
    {a b : α} {c d : β} (h : a = b ↔ c = d) : (a == b) = (c == d) := by
  by_cases hab : a = b
  · simp [hab, h.mp hab]
  · have hcd : ¬ c = d := fun hcd => hab (h.mpr hcd)
    simp [hab, hcd]

theorem dashCancel {a b c : String} : a ++ "-" ++ b = a ++ "-" ++ c ↔ b = c :=
  strAppend_cancel_left

theorem dashAppend_inj (a : String) :
    Function.Injective (fun s => a ++ "-" ++ s) := by
  intro x y h
  exact dashCancel.mp h

theorem upsertBy_map_key {key : FolderNode → String} {t : String}
    {fresh : FolderNode} {f : FolderNode → FolderNode}
    (hf : ∀ y, key (f y) = key y) :
    ∀ l : List FolderNode,
      (upsertBy key t fresh f l).map key =
        if l.any (fun x => key x == t) then l.map key
        else l.map key ++ [key (f fresh)]
  | [] => by simp [upsertBy, hf]
  | n :: ns => by
    rw [upsertBy]
    by_cases hk : (key n == t) = true
    · rw [if_pos hk]
      simp only [List.map_cons, hf, List.any_cons, hk, Bool.true_or, if_true]
    · rw [if_neg hk]
      have hkf : (key n == t) = false := eq_false_of_ne_true hk
      simp only [List.map_cons, List.any_cons, hkf, Bool.false_or]
      rw [upsertBy_map_key hf ns]
      by_cases hany : ns.any (fun x => key x == t)
      · rw [if_pos hany, if_pos hany]
      · rw [if_neg hany, if_neg hany, List.cons_append]

theorem upsertBy_nodup_key {key : FolderNode → String} {t : String}
    {fresh : FolderNode} {f : FolderNode → FolderNode}
    (hf : ∀ y, key (f y) = key y) (hfr : key fresh = t)
    {l : List FolderNode} (h : (l.map key).Nodup) :
    ((upsertBy key t fresh f l).map key).Nodup := by
  rw [upsertBy_map_key hf]
  by_cases hany : l.any (fun x => key x == t)
  · rw [if_pos hany]
    exact h
  · rw [if_neg hany, hf, hfr]
    have ht : t ∉ l.map key := by
      intro hmem
      obtain ⟨x, hx, hxe⟩ := List.mem_map.mp hmem
      exact hany (List.any_eq_true.mpr ⟨x, hx, beq_iff_eq.mpr hxe⟩)
    refine List.Nodup.append h (List.nodup_singleton t) ?_
    intro a ha hb
    rw [List.mem_singleton] at hb
    subst hb
    exact ht ha

theorem discChildren_shape (d : Document) {i : String}
    {children : List FolderNode}
    (hch : ∀ dn ∈ children, dn.id = i ++ "-" ++ dn.name)
    (hi : i = d.projectId ++ "-" ++ d.phase) :
    ∀ dn ∈ discChildren d children, dn.id = i ++ "-" ++ dn.name := by
  intro dn hdn
  rcases mem_upsertBy hdn with h | h | h
  · exact hch dn h
  · obtain ⟨y, ⟨hy, _⟩, rfl⟩ := h
    exact hch y hy
  · subst h
    show d.projectId ++ "-" ++ d.phase ++ "-" ++ d.discipline
        = i ++ "-" ++ d.discipline
    rw [hi]

theorem phaseChildren_shape (d : Document) {i : String}
    {children : List FolderNode}
    (hch : ∀ ph ∈ children, ph.id = i ++ "-" ++ ph.name ∧
      ∀ dn ∈ ph.children, dn.id = ph.id ++ "-" ++ dn.name)
    (hi : i = d.projectId) :
    ∀ ph ∈ phaseChildren d children, ph.id = i ++ "-" ++ ph.name ∧
      ∀ dn ∈ ph.children, dn.id = ph.id ++ "-" ++ dn.name := by
  intro ph hph
  rcases mem_upsertBy hph with h | h | h
  · exact hch ph h
  · obtain ⟨y, ⟨hy, hk⟩, rfl⟩ := h
    have hyname : y.name = d.phase := eq_of_beq hk
    refine ⟨(hch y hy).1, ?_⟩
    refine discChildren_shape d (hch y hy).2 ?_
    show y.id = d.projectId ++ "-" ++ d.phase
    rw [(hch y hy).1, hi, hyname]
  · subst h
    constructor
    · show d.projectId ++ "-" ++ d.phase = i ++ "-" ++ d.phase
      rw [hi]
    · refine discChildren_shape d ?_ rfl
      intro dn hdn
      exact absurd hdn (List.not_mem_nil dn)

theorem discChildren_namesNodup (d : Document) {children : List FolderNode}
    (h : (children.map FolderNode.name).Nodup) :
    ((discChildren d children).map FolderNode.name).Nodup := by
  simp only [discChildren]
  refine upsertBy_nodup_key ?_ ?_ h
  · intro y
    rfl
  · rfl

theorem phaseChildren_namesNodup (d : Document) {children : List FolderNode}
    (h1 : (children.map FolderNode.name).Nodup)
    (h2 : ∀ ph ∈ children, (ph.children.map FolderNode.name).Nodup) :
    ((phaseChildren d children).map FolderNode.name).Nodup ∧
      ∀ ph ∈ phaseChildren d children,
        (ph.children.map FolderNode.name).Nodup := by
  constructor
  · simp only [phaseChildren]
    refine upsertBy_nodup_key ?_ ?_ h1
    · intro y
      rfl
    · rfl
  · intro ph hph
    rcases mem_upsertBy hph with h | h | h
    · exact h2 ph h
    · obtain ⟨y, ⟨hy, _⟩, rfl⟩ := h
      show ((discChildren d y.children).map FolderNode.name).Nodup
      exact discChildren_namesNodup d (h2 y hy)
    · subst h
      show ((discChildren d []).map FolderNode.name).Nodup
      exact discChildren_namesNodup d (by simp)

theorem insertDoc_nodeInv (projects : List Project) (d : Document)
    {acc : List FolderNode} (h : ∀ pn ∈ acc, nodeInv pn) :
    ∀ pn ∈ insertDoc projects acc d, nodeInv pn := by
  intro pn hpn
  rcases mem_upsertBy hpn with hm | hm | hm
  · exact h pn hm
  · obtain ⟨y, ⟨hy, hk⟩, rfl⟩ := hm
    have hyid : y.id = d.projectId := eq_of_beq hk
    obtain ⟨hsh, hn1, hn2⟩ := h y hy
    exact ⟨phaseChildren_shape d hsh hyid,
      (phaseChildren_namesNodup d hn1 hn2).1,
      (phaseChildren_namesNodup d hn1 hn2).2⟩
  · subst hm
    refine ⟨?_, ?_, ?_⟩
    · exact phaseChildren_shape d
        (fun ph hph => absurd hph (List.not_mem_nil ph)) rfl
    · exact (phaseChildren_namesNodup d (by simp)
        (fun ph hph => absurd hph (List.not_mem_nil ph))).1
    · exact (phaseChildren_namesNodup d (by simp)
        (fun ph hph => absurd hph (List.not_mem_nil ph))).2

theorem insertDoc_ids_nodup (projects : List Project) (d : Document)
    {acc : List FolderNode} (h : (acc.map FolderNode.id).Nodup) :
    ((insertDoc projects acc d).map FolderNode.id).Nodup := by
  simp only [insertDoc]
  refine upsertBy_nodup_key ?_ ?_ h
  · intro y
    rfl
  · rfl

theorem foldl_insertDoc_nodeInv (projects : List Project) :
    ∀ (docs : List Document) (acc : List FolderNode),
      (∀ pn ∈ acc, nodeInv pn) →
      ∀ pn ∈ docs.foldl (insertDoc projects) acc, nodeInv pn
  | [], _, h => h
  | d :: ds, acc, h => by
    rw [List.foldl_cons]
    exact foldl_insertDoc_nodeInv projects ds _ (insertDoc_nodeInv projects d h)

theorem foldl_insertDoc_ids_nodup (projects : List Project) :
    ∀ (docs : List Document) (acc : List FolderNode),
      (acc.map FolderNode.id).Nodup →
      ((docs.foldl (insertDoc projects) acc).map FolderNode.id).Nodup
  | [], _, h => h
  | d :: ds, acc, h => by
    rw [List.foldl_cons]
    exact foldl_insertDoc_ids_nodup projects ds _
      (insertDoc_ids_nodup projects d h)

theorem discChildren_eq_byId (d : Document) {i : String}
    {children : List FolderNode}
    (hch : ∀ dn ∈ children, dn.id = i ++ "-" ++ dn.name)
    (hi : i = d.projectId ++ "-" ++ d.phase) :
    discChildren d children = discChildrenById d children := by
  simp only [discChildren, discChildrenById]
  refine upsertBy_eq ?_ (fun x hx hk => rfl) rfl
  intro dn hdn
  refine beq_congr ?_
  rw [hch dn hdn, hi]
  exact dashCancel.symm

theorem phaseChildren_eq_byId (d : Document) {i : String}
    {children : List FolderNode}
    (hch : ∀ ph ∈ children, ph.id = i ++ "-" ++ ph.name ∧
      ∀ dn ∈ ph.children, dn.id = ph.id ++ "-" ++ dn.name)
    (hi : i = d.projectId) :
    phaseChildren d children = phaseChildrenById d children := by
  simp only [phaseChildren, phaseChildrenById]
  refine upsertBy_eq ?_ ?_ ?_
  · intro ph hph
    refine beq_congr ?_
    rw [(hch ph hph).1, hi]
    exact dashCancel.symm
  · intro ph hph hk
    have hn : ph.name = d.phase := eq_of_beq hk
    have he : discChildren d ph.children = discChildrenById d ph.children := by
      refine discChildren_eq_byId d (hch ph hph).2 ?_
      rw [(hch ph hph).1, hi, hn]
    simp only [phaseUpdate, phaseUpdateById, he]
  · have he : discChildren d (freshPhaseNode d).children =
        discChildrenById d (freshPhaseNode d).children := by
      refine discChildren_eq_byId d ?_ rfl
      intro dn hdn
      exact absurd hdn (List.not_mem_nil dn)
    simp only [phaseUpdate, phaseUpdateById, he]

theorem insertDoc_eq_byId (projects : List Project) (d : Document)
    {acc : List FolderNode} (h : ∀ pn ∈ acc, nodeInv pn) :
    insertDoc projects acc d = insertDocById projects acc d := by
  simp only [insertDoc, insertDocById]
  refine upsertBy_eq (fun x hx => rfl) ?_ ?_
  · intro pn hpn hk
    have he : phaseChildren d pn.children = phaseChildrenById d pn.children :=
      phaseChildren_eq_byId d (h pn hpn).1 (eq_of_beq hk)
    simp only [projUpdate, projUpdateById, he]
  · have he : phaseChildren d (freshProjectNode projects d.projectId).children
        = phaseChildrenById d (freshProjectNode projects d.projectId).children := by
      refine phaseChildren_eq_byId d ?_ rfl
      intro ph hph
      exact absurd hph (List.not_mem_nil ph)
    simp only [projUpdate, projUpdateById, he]

theorem foldl_insertDoc_eq_byId (projects : List Project) :
    ∀ (docs : List Document) (acc : List FolderNode),
      (∀ pn ∈ acc, nodeInv pn) →
      docs.foldl (insertDoc projects) acc =
        docs.foldl (insertDocById projects) acc
  | [], _, _ => rfl
  | d :: ds, acc, h => by
    rw [List.foldl_cons, List.foldl_cons, ← insertDoc_eq_byId projects d h]
    exact foldl_insertDoc_eq_byId projects ds _ (insertDoc_nodeInv projects d h)

theorem ids_of_nodeInv {pn : FolderNode} (h : nodeInv pn) :
    (pn.children.map FolderNode.id).Nodup ∧
      ∀ ph ∈ pn.children, (ph.children.map FolderNode.id).Nodup := by
  obtain ⟨hsh, hn1, hn2⟩ := h
  constructor
  · have hmap : pn.children.map FolderNode.id =
        (pn.children.map FolderNode.name).map (fun s => pn.id ++ "-" ++ s) := by
      rw [List.map_map]
      exact List.map_congr_left fun ph hph => (hsh ph hph).1
    rw [hmap]
    exact hn1.map (dashAppend_inj pn.id)
  · intro ph hph
    have hmap : ph.children.map FolderNode.id =
        (ph.children.map FolderNode.name).map (fun s => ph.id ++ "-" ++ s) := by
      rw [List.map_map]
      exact List.map_congr_left fun dn hdn => (hsh ph hph).2 dn hdn
    rw [hmap]
    exact (hn2 ph hph).map (dashAppend_inj ph.id)

/-- C3 as stated fails on the code: the merge step looks a sibling phase
node up by its display name, not by its composite id.  On an accumulator
whose phase child is named `"Design"` but carries a different id, merging
`d1` increments that child, while exact-id lookup would append a second
child — the two merges differ. -/
theorem c3_lookup_by_name_counterexample :
    ¬ insertDoc [] oddPhaseAcc d1 = insertDocById [] oddPhaseAcc d1 := by
  intro h
  have h2 := congrArg
    (fun l : List FolderNode => (l.headD default).children.length) h
  exact absurd h2 (by decide)

/-- C3 (amended).  The builder looks sibling phase and discipline nodes up
by display name, but every tree it actually builds satisfies the shape
invariant (each child id is the parent id, a dash, and the child name), so
the built tree equals the tree built with exact-id lookup, and no two
sibling nodes in it share the same id. -/
theorem c3_lookup_equivalence :
    (∀ (projects : List Project) (docs : List Document),
      folderTree projects docs = folderTreeById projects docs) ∧
    (∀ (projects : List Project) (docs : List Document),
      ((rootNode projects docs).children.map FolderNode.id).Nodup ∧
      ∀ pn ∈ (rootNode projects docs).children,
        (pn.children.map FolderNode.id).Nodup ∧
          ∀ ph ∈ pn.children, (ph.children.map FolderNode.id).Nodup) := by
  constructor
  · intro projects docs
    have he := foldl_insertDoc_eq_byId projects docs []
      (fun pn hpn => absurd hpn (List.not_mem_nil pn))
    rw [folderTree, folderTreeById, he]
  · intro projects docs
    have hinv := foldl_insertDoc_nodeInv projects docs []
      (fun pn hpn => absurd hpn (List.not_mem_nil pn))
    constructor
    · exact foldl_insertDoc_ids_nodup projects docs [] (by simp)
    · intro pn hpn
      exact ⟨(ids_of_nodeInv (hinv pn hpn)).1, (ids_of_nodeInv (hinv pn hpn)).2⟩

/-- Witness for C3 (amended) at a concrete input. -/
theorem c3_lookup_equivalence_witness :
    ((rootNode [] specD8).children.map FolderNode.id).Nodup ∧
      ((((rootNode [] specD8).children.headD default).children.map
        FolderNode.id).Nodup) :=
  ⟨(c3_lookup_equivalence.2 [] specD8).1,
    ((c3_lookup_equivalence.2 [] specD8).2 _ (List.mem_cons_self _ _)).1⟩
